import Mathlib

/-!
Verification of the retrieval-and-ranking engine
(`server/services/vector_store.py`, `server/services/rag_engine.py`).

The Python code is shallowly embedded: floats become `ℚ`, Python dicts
(insertion-ordered) become association lists with insertion-order update /
delete operations, raised exceptions become `Option`/`Except`, and the two
external collaborators (the SentenceTransformer embedding model composed with
L2-normalisation, and the LLM generation client) become opaque function
parameters.  The FAISS `IndexFlatIP` similarity index is modelled as an exact
inner-product top-k search returning hits sorted by descending score with
ties broken by ascending insertion position (the contract stated for the
Similarity Index).  All text operations (`str.lower`, `str.split`,
`str.strip`, `re.findall` word extraction, substring tests) are implemented
structurally over `List Char` so that every definition evaluates inside the
kernel.
-/

/-! ## Python string primitives, modelled structurally over `List Char` -/

/-- Models `str.lower()` (ASCII case folding, as used on the repo's text). -/
def lowerStr (s : String) : String := (s.data.map Char.toLower).asString

/-- Maximal runs of characters satisfying `p`; the accumulator holds the
current (reversed) run.  Used to model `str.split()` and `re.findall(r'\b\w+\b', s)`. -/
def runsGo (p : Char → Bool) : List Char → List Char → List String
  | acc, [] => if acc.isEmpty then [] else [acc.reverse.asString]
  | acc, c :: rest =>
    if p c then runsGo p (c :: acc) rest
    else (if acc.isEmpty then [] else [acc.reverse.asString]) ++ runsGo p [] rest

/-- Models Python `str.split()` with no argument: maximal runs of
non-whitespace characters. -/
def pySplit (s : String) : List String := runsGo (fun c => !c.isWhitespace) [] s.data

/-- Models Python `str.strip()`: drop leading and trailing whitespace. -/
def pyStrip (s : String) : String :=
  ((s.data.dropWhile Char.isWhitespace).reverse.dropWhile Char.isWhitespace).reverse.asString

/-- A word character for the regex `\w` (ASCII fragment). -/
def isWordChar (c : Char) : Bool := c.isAlphanum || c = '_'

/-- Models `re.findall(r'\b\w+\b', s)`: maximal runs of word characters. -/
def findWords (s : String) : List String := runsGo isWordChar [] s.data

/-- Models Python's substring test `p in t`. -/
def substrB (p t : String) : Bool := t.data.tails.any (fun suf => p.data.isPrefixOf suf)

/-- Models Python `text.endswith(c)` for a one-character suffix. -/
def pyEndsWith (s : String) (c : Char) : Bool := s.data.getLast? = some c

/-- Left-to-right scan for `re.findall(r'"([^"]*)"', s)`: the state is
`none` outside quotes, `some acc` inside a quote pair with the captured
(reversed) characters; an unclosed final quote captures nothing. -/
def extractQuotedGo : Option (List Char) → List Char → List String
  | _, [] => []
  | none, c :: rest =>
    if c = '"' then extractQuotedGo (some []) rest else extractQuotedGo none rest
  | some acc, c :: rest =>
    if c = '"' then acc.reverse.asString :: extractQuotedGo none rest
    else extractQuotedGo (some (c :: acc)) rest

/-- Models `re.findall(r'"([^"]*)"', s)`: the captured groups of successive
quote pairs. -/
def extractQuoted (s : String) : List String := extractQuotedGo none s.data

/-! ## Python `round(x, 3)` -/

/-- Round-half-to-even on `ℚ`, Python's `round` tie rule. -/
def roundHalfToEven (q : ℚ) : ℤ :=
  if Int.fract q = 1/2 then (if ⌊q⌋ % 2 = 0 then ⌊q⌋ else ⌊q⌋ + 1) else round q

/-- Models Python `round(x, 3)` in exact arithmetic. -/
def pyRound3 (q : ℚ) : ℚ := (roundHalfToEven (q * 1000) : ℚ) / 1000

/-! ## Data model of the vector store -/

/-- An input chunk handed to `add_document` (the chunk dict produced by the
PDF processor: its text plus page metadata; the whole dict is stored back as
the chunk's `metadata`). -/
structure InChunk where
  text : String
  page : Option ℕ := none
deriving DecidableEq, Repr

/-- The value stored in `self.chunks[chunk_id]`. -/
structure ChunkData where
  document_id : String
  text : String
  metadata : InChunk
  chunk_index : ℕ
deriving DecidableEq, Repr

/-- The value stored in `self.documents[document_id]`. -/
structure DocData where
  metadata : List (String × String)
  chunk_count : ℕ
  chunk_ids : List String
deriving DecidableEq, Repr

/-- A search-result dict.  `quality_score` models the key that
`_filter_chunks` later adds to the same dict (absent ⇔ `none`). -/
structure SearchResult where
  chunk_id : String
  document_id : String
  text : String
  score : ℚ
  metadata : InChunk
  quality_score : Option ℚ := none
deriving DecidableEq, Repr

/-- State of a `VectorStore` instance: the FAISS index contents (insertion
order), the two insertion-ordered dicts, and the running chunk counter. -/
structure VectorStore where
  dimension : ℕ
  index_vecs : List (List ℚ)
  documents : List (String × DocData)
  chunks : List (String × ChunkData)
  chunk_counter : ℕ
deriving DecidableEq, Repr

/-- A fresh store (`VectorStore.__init__`). -/
def mkStore (dimension : ℕ) : VectorStore :=
  { dimension := dimension, index_vecs := [], documents := [], chunks := [], chunk_counter := 0 }

/-! ### Insertion-ordered dict operations (Python `dict` semantics) -/

/-- `d[k] = v`: overwrite in place if the key exists, else append. -/
def dictSet {α : Type} (k : String) (v : α) : List (String × α) → List (String × α)
  | [] => [(k, v)]
  | (k', v') :: rest => if k' = k then (k, v) :: rest else (k', v') :: dictSet k v rest

/-- In-place mutation of an existing value (`d[k].extend(...)` style). -/
def dictModify {α : Type} (k : String) (f : α → α) : List (String × α) → List (String × α)
  | [] => []
  | (k', v) :: rest => if k' = k then (k', f v) :: rest else (k', v) :: dictModify k f rest

/-- `del d[k]`. -/
def dictDelete {α : Type} (k : String) (m : List (String × α)) : List (String × α) :=
  m.filter (fun p => p.1 != k)

/-! ### `add_document` -/

/-- The chunk id `f"{document_id}_{counter}"`. -/
def chunkIdOf (document_id : String) (c : ℕ) : String :=
  document_id ++ "_" ++ Nat.repr c

/-- The `(chunk_id, counter)` pairs assigned by the chunk loop of
`add_document`, starting from the given counter value. -/
def assignPairs (document_id : String) : ℕ → List InChunk → List (String × ℕ)
  | _, [] => []
  | c, _ :: cs => (chunkIdOf document_id c, c) :: assignPairs document_id (c + 1) cs

/-- The `(chunk_id, chunk data)` entries created by the chunk loop of
`add_document` (`chunk_index` is the position inside the batch, i.e.
`len(texts)` at insertion time). -/
def buildChunkEntries (document_id : String) : ℕ → ℕ → List InChunk → List (String × ChunkData)
  | _, _, [] => []
  | c, pos, ch :: cs =>
    (chunkIdOf document_id c, ⟨document_id, ch.text, ch, pos⟩)
      :: buildChunkEntries document_id (c + 1) (pos + 1) cs

/-- `VectorStore.add_document`.  `embed` models
`faiss.normalize_L2(self.embedding_model.encode(·))`; the loop increments
`self.chunk_counter` once per chunk, so it ends at `start + len(chunks)`. -/
def VectorStore.add_document (st : VectorStore) (embed : String → List ℚ)
    (document_id : String) (chunks : List InChunk)
    (document_metadata : List (String × String)) : VectorStore :=
  let docs1 := dictSet document_id ⟨document_metadata, chunks.length, []⟩ st.documents
  let entries := buildChunkEntries document_id st.chunk_counter 0 chunks
  let ids := entries.map Prod.fst
  { st with
    documents := dictModify document_id (fun d => { d with chunk_ids := d.chunk_ids ++ ids }) docs1
    chunks := entries.foldl (fun m e => dictSet e.1 e.2 m) st.chunks
    index_vecs := st.index_vecs ++ chunks.map (fun ch => embed ch.text)
    chunk_counter := st.chunk_counter + chunks.length }

/-! ### `search` -/

/-- Inner product of two vectors (`np.dot` on equal-length vectors). -/
def dotQ : List ℚ → List ℚ → ℚ
  | a :: as, b :: bs => a * b + dotQ as bs
  | _, _ => 0

/-- The FAISS result order on `(score, position)` hits: descending score,
ties broken by ascending position. -/
def faissOrd (a b : ℚ × ℕ) : Prop := b.1 < a.1 ∨ (a.1 = b.1 ∧ a.2 ≤ b.2)

instance : DecidableRel faissOrd := fun a b => by
  unfold faissOrd; infer_instance

instance : IsTotal (ℚ × ℕ) faissOrd := by
  constructor
  intro a b
  rcases lt_trichotomy a.1 b.1 with h | h | h
  · exact Or.inr (Or.inl h)
  · rcases Nat.le_total a.2 b.2 with h2 | h2
    · exact Or.inl (Or.inr ⟨h, h2⟩)
    · exact Or.inr (Or.inr ⟨h.symm, h2⟩)
  · exact Or.inl (Or.inl h)

instance : IsTrans (ℚ × ℕ) faissOrd := by
  constructor
  rintro a b c (hab | ⟨hab, hab2⟩) (hbc | ⟨hbc, hbc2⟩)
  · exact Or.inl (hbc.trans hab)
  · exact Or.inl (hbc ▸ hab)
  · exact Or.inl (hab ▸ hbc)
  · exact Or.inr ⟨hab.trans hbc, hab2.trans hbc2⟩

/-- Scores of all stored vectors against the query, paired with their stable
index positions (starting at `i`). -/
def scoreHits (q : List ℚ) : List (List ℚ) → ℕ → List (ℚ × ℕ)
  | [], _ => []
  | v :: vs, i => (dotQ q v, i) :: scoreHits q vs (i + 1)

/-- Models `faiss.IndexFlatIP.search(query, m)`: the `m` best `(score, idx)`
pairs, sorted by descending inner product, ties by ascending position. -/
def simIndexSearch (vecs : List (List ℚ)) (q : List ℚ) (m : ℕ) : List (ℚ × ℕ) :=
  (List.insertionSort faissOrd (scoreHits q vecs 0)).take m

/-- The result-building loop of `VectorStore.search`.  `chunk_id_list[idx]`
uses the *current* iteration order of `self.chunks`; an out-of-range index
raises (`none`).  The loop breaks once `k` results are collected.  (The
`idx == -1` skip never fires: FAISS is only asked for `≤ ntotal` results.) -/
def searchGo (chunks : List (String × ChunkData)) (document_ids : List String) (k : ℕ) :
    List (ℚ × ℕ) → List SearchResult → Option (List SearchResult)
  | [], results => some results
  | (score, idx) :: rest, results =>
    match (chunks.map Prod.fst)[idx]? with
    | none => none
    | some cid =>
      match List.lookup cid chunks with
      | none => none
      | some cd =>
        if document_ids ≠ [] ∧ cd.document_id ∉ document_ids then
          searchGo chunks document_ids k rest results
        else
          let results' := results ++
            [{ chunk_id := cid, document_id := cd.document_id, text := cd.text,
               score := score, metadata := cd.metadata }]
          if k ≤ results'.length then some results'
          else searchGo chunks document_ids k rest results'

/-- `VectorStore.search`: embed the query, ask FAISS for
`min(k * 2, ntotal)` hits, then resolve positions through the chunk dict's
current key order, filtering by `document_ids` (an empty list means no
filter, like Python's falsy `None`/`[]`). -/
def VectorStore.search (st : VectorStore) (embed : String → List ℚ)
    (query : String) (k : ℕ) (document_ids : List String) : Option (List SearchResult) :=
  searchGo st.chunks document_ids k
    (simIndexSearch st.index_vecs (embed query) (min (k * 2) st.index_vecs.length)) []

/-! ### `get_document_chunks`, `remove_document`, persistence, stats -/

/-- One element of `get_document_chunks`' result. -/
structure ChunkOut where
  chunk_id : String
  text : String
  metadata : InChunk
deriving DecidableEq, Repr

/-- The comprehension body of `get_document_chunks`: `self.chunks[chunk_id]`
raises (`none`) on a dangling id. -/
def collectChunks (chunks : List (String × ChunkData)) : List String → Option (List ChunkOut)
  | [] => some []
  | cid :: rest =>
    match List.lookup cid chunks with
    | none => none
    | some cd =>
      match collectChunks chunks rest with
      | none => none
      | some l => some (⟨cid, cd.text, cd.metadata⟩ :: l)

/-- `VectorStore.get_document_chunks`. -/
def VectorStore.get_document_chunks (st : VectorStore) (document_id : String) :
    Option (List ChunkOut) :=
  match List.lookup document_id st.documents with
  | none => some []
  | some dd => collectChunks st.chunks dd.chunk_ids

/-- `VectorStore.remove_document`: returns the new state and the boolean
result.  The FAISS index is left untouched (the code only notes that a
rebuild would be needed). -/
def VectorStore.remove_document (st : VectorStore) (document_id : String) :
    VectorStore × Bool :=
  match List.lookup document_id st.documents with
  | none => (st, false)
  | some dd =>
    let chunks' := dd.chunk_ids.foldl
      (fun m cid => if (List.lookup cid m).isSome then dictDelete cid m else m) st.chunks
    ({ st with chunks := chunks', documents := dictDelete document_id st.documents }, true)

/-- The snapshot written by `VectorStore.save` (FAISS index file plus the
pickled metadata dict). -/
structure Snapshot where
  index_vecs : List (List ℚ)
  documents : List (String × DocData)
  chunks : List (String × ChunkData)
  chunk_counter : ℕ
  dimension : ℕ
deriving DecidableEq, Repr

/-- `VectorStore.save`. -/
def VectorStore.save (st : VectorStore) : Snapshot :=
  ⟨st.index_vecs, st.documents, st.chunks, st.chunk_counter, st.dimension⟩

/-- `VectorStore.load`: replaces the index and all metadata fields of the
receiving store. -/
def VectorStore.load (st : VectorStore) (s : Snapshot) : VectorStore :=
  { st with
    index_vecs := s.index_vecs
    documents := s.documents
    chunks := s.chunks
    chunk_counter := s.chunk_counter
    dimension := s.dimension }

/-- The `get_stats` dict. -/
structure Stats where
  total_documents : ℕ
  total_chunks : ℕ
  index_size : ℕ
  dimension : ℕ
deriving DecidableEq, Repr

/-- `VectorStore.get_stats`. -/
def VectorStore.get_stats (st : VectorStore) : Stats :=
  ⟨st.documents.length, st.chunks.length, st.index_vecs.length, st.dimension⟩

/-! ## RAG engine (`rag_engine.py`) -/

/-- The RAG configuration set in `RAGEngine.__init__`. -/
structure RAGConfig where
  max_context_length : ℕ := 4000
  min_relevance_score : ℚ := 3/10
  max_sources : ℕ := 5
deriving DecidableEq, Repr

/-- The configuration the constructor installs. -/
def defaultConfig : RAGConfig := {}

/-- The stop-word set of `_extract_keywords`. -/
def stopWords : List String :=
  ["a", "an", "the", "and", "or", "but", "is", "are", "was", "were",
   "be", "been", "being", "in", "on", "at", "to", "for", "with", "by",
   "about", "like", "through", "over", "before", "after", "between",
   "under", "above", "of", "during", "what", "when", "where", "why",
   "how", "all", "any", "both", "each", "few", "more", "most", "some",
   "such", "no", "nor", "not", "only", "own", "same", "so", "than",
   "too", "very", "can", "will", "just", "should", "now"]

/-- `RAGEngine._extract_keywords`. -/
def extract_keywords (text : String) : List String :=
  (findWords (lowerStr text)).filter (fun w => !(stopWords.contains w) && decide (2 < w.length))

/-- The lowered word set of a text, `set(text.lower().split())`. -/
def wordSet (s : String) : Finset String := (pySplit (lowerStr s)).toFinset

/-- `RAGEngine._calculate_text_similarity`: word-set Jaccard similarity. -/
def calculate_text_similarity (text1 text2 : String) : ℚ :=
  let words1 := wordSet text1
  let words2 := wordSet text2
  if words1 = ∅ ∨ words2 = ∅ then 0
  else ((words1 ∩ words2).card : ℚ) / ((words1 ∪ words2).card : ℚ)

/-- The article/preposition list skipped when forming 2-grams in
`_extract_phrases`. -/
def twoGramSkip : List String := ["a", "an", "the", "in", "on", "at", "by", "for", "with"]

/-- The 2-gram loop of `_extract_phrases`. -/
def twoGrams : List String → List String
  | w1 :: w2 :: rest =>
    (if twoGramSkip.contains w1 then [] else [w1 ++ " " ++ w2]) ++ twoGrams (w2 :: rest)
  | _ => []

/-- `RAGEngine._extract_phrases`: quoted phrases, then word 2-grams. -/
def extract_phrases (text : String) : List String :=
  extractQuoted text ++ twoGrams (pySplit text)

/-- The quantity-asking cue phrases of the numeric-content bonus. -/
def quantityWords : List String :=
  ["how many", "how much", "number", "amount", "percentage", "rate"]

/-- `RAGEngine._calculate_quality_score`: sum of the weighted signals
(keyword overlap, length band, terminal punctuation, lexical density,
exact-phrase bonus, numeric-content bonus), clamped above at `1.0`. -/
def calculate_quality_score (chunk : SearchResult) (question : String)
    (question_keywords : List String) : ℚ :=
  let text := lowerStr chunk.text
  let question_lower := lowerStr question
  let text_words := (pySplit text).toFinset
  let s_kw : ℚ :=
    if question_keywords ≠ [] then
      ((question_keywords.countP (fun kw => decide (kw ∈ text_words)) : ℚ) /
        (question_keywords.length : ℚ)) * (4/10)
    else 0
  let text_len := (pySplit text).length
  let s_len : ℚ :=
    if 100 ≤ text_len ∧ text_len ≤ 300 then 3/10
    else if (50 ≤ text_len ∧ text_len < 100) ∨ (300 < text_len ∧ text_len ≤ 500) then 2/10
    else if text_len < 50 then -(1/10)
    else 0
  let s_end : ℚ :=
    if pyEndsWith text '.' || pyEndsWith text '!' || pyEndsWith text '?' then 1/10 else 0
  let s_density : ℚ :=
    if 0 < text_len then ((text_words.card : ℚ) / (text_len : ℚ)) * (2/10) else 0
  let s_phrase : ℚ :=
    if (extract_phrases question_lower).any
        (fun p => substrB p text && decide (1 < (pySplit p).length)) then 2/10 else 0
  let s_num : ℚ :=
    if (quantityWords.any (fun w => substrB w question_lower)) && (text.data.any Char.isDigit)
    then 2/10 else 0
  min (s_kw + s_len + s_end + s_density + s_phrase + s_num) 1

/-- The loop of `_ensure_diversity`: walk the remaining candidates, append a
candidate unless it is too similar to an already-kept one, and break once
`max_sources` have been kept (the break check runs after the append). -/
def ensureDiversityGo (max_sources : ℕ) (threshold : ℚ) :
    List SearchResult → List SearchResult → List SearchResult
  | [], kept => kept
  | c :: cs, kept =>
    let kept' :=
      if kept.any (fun s => decide (threshold < calculate_text_similarity c.text s.text))
      then kept else kept ++ [c]
    if max_sources ≤ kept'.length then kept'
    else ensureDiversityGo max_sources threshold cs kept'

/-- `RAGEngine._ensure_diversity` (default `similarity_threshold = 0.8`);
always starts from the highest-ranked chunk. -/
def ensure_diversity (max_sources : ℕ) (threshold : ℚ)
    (chunks : List SearchResult) : List SearchResult :=
  match chunks with
  | [] => []
  | c0 :: rest => ensureDiversityGo max_sources threshold rest [c0]

/-- The sort key of `_filter_chunks`: `score * 0.6 + quality_score * 0.4`
(the `quality_score` key is always present at this point). -/
def sortKeyCombined (r : SearchResult) : ℚ :=
  r.score * (6/10) + (r.quality_score.getD 0) * (4/10)

/-- The order realised by `list.sort(key=..., reverse=True)`: descending
combined score, stable on ties. -/
def combinedOrd (a b : SearchResult) : Prop := sortKeyCombined b ≤ sortKeyCombined a

instance : DecidableRel combinedOrd := fun a b => by
  unfold combinedOrd; infer_instance

/-- `RAGEngine._filter_chunks`: relevance/length filter, quality scoring,
stable sort by combined score, then the diversity filter (threshold `0.8`,
cap `self.max_sources`). -/
def filter_chunks (cfg : RAGConfig) (search_results : List SearchResult)
    (question : String) : List SearchResult :=
  let question_keywords := extract_keywords question
  let filtered := (search_results.filter (fun r =>
      decide (cfg.min_relevance_score ≤ r.score) &&
      decide (50 ≤ (pyStrip r.text).length))).map
    (fun r => { r with quality_score := some (calculate_quality_score r question question_keywords) })
  ensure_diversity cfg.max_sources (8/10) (List.insertionSort combinedOrd filtered)

/-- Rendering of the page label in `_build_context`. -/
def pageStr : Option ℕ → String
  | some p => Nat.repr p
  | none => "Unknown"

/-- `RAGEngine._build_context` (the `mode` argument is unused in the
source body as well). -/
def build_context (cfg : RAGConfig) (chunks : List SearchResult) (_mode : String) : String :=
  let parts := chunks.enum.map (fun p =>
    "[Source " ++ Nat.repr (p.1 + 1) ++ " - Document: " ++ p.2.document_id ++
      ", Page: " ++ pageStr p.2.metadata.page ++ "]\n" ++ pyStrip p.2.text ++ "\n")
  let context := String.intercalate "\n" parts
  if cfg.max_context_length < (pySplit context).length then
    String.intercalate " " ((pySplit context).take cfg.max_context_length) ++ "... [truncated]"
  else context

/-- The `base_instructions` lookup of `_build_prompt` (falls back to the
standard instruction). -/
def base_instructions (mode : String) : String :=
  if mode = "standard" then
    "You are an AI assistant that answers questions based on provided document content."
  else if mode = "industry" then
    "You are an AI assistant specializing in industry-specific document analysis."
  else if mode = "medical" then
    "You are an AI assistant with expertise in medical document analysis. Provide accurate, evidence-based responses."
  else if mode = "finance" then
    "You are an AI assistant with expertise in financial document analysis."
  else if mode = "retail" then
    "You are an AI assistant with expertise in retail and product documentation."
  else if mode = "education" then
    "You are an AI assistant with expertise in educational content analysis."
  else
    "You are an AI assistant that answers questions based on provided document content."

/-- `RAGEngine._build_prompt`. -/
def build_prompt (question context mode : String) : String :=
  base_instructions mode ++
  "\n\nPlease answer the following question based ONLY on the provided context from the documents. If the context doesn\x27t contain enough information to answer the question completely, say so clearly.\n\nCONTEXT:\n" ++
  context ++ "\n\nQUESTION: " ++ question ++
  "\n\nINSTRUCTIONS:\n- Base your answer strictly on the provided context\n- If information is not available in the context, state this clearly\n- Provide specific references to source documents and pages when possible\n- Be concise but comprehensive\n- If the question asks for something not covered in the documents, explain what information is missing\n- Ensure your answer is well-structured and easy to understand\n- If appropriate, use bullet points or numbered lists for clarity\n\nANSWER:"

/-- One formatted source of `_format_sources`. -/
structure SourceOut where
  document_id : String
  document_name : String
  chunk_content : String
  page : Option ℕ
  relevance : ℚ
deriving DecidableEq, Repr

/-- `RAGEngine._format_sources`. -/
def format_sources (chunks : List SearchResult) : List SourceOut :=
  chunks.map (fun c =>
    { document_id := c.document_id
      document_name := c.document_id ++ ".pdf"
      chunk_content := if 200 < c.text.length then (c.text.data.take 200).asString ++ "..." else c.text
      page := c.metadata.page
      relevance := pyRound3 c.score })

/-- `RAGEngine._calculate_confidence`: `0` on an empty list, otherwise the
rounded blend of mean raw score, source-count saturation and mean quality
score (a missing `quality_score` key defaults to `0.5`). -/
def calculate_confidence (chunks : List SearchResult) : ℚ :=
  if chunks = [] then 0
  else
    let n : ℚ := chunks.length
    let avg_score := (chunks.map (fun c => c.score)).sum / n
    let source_factor := min (n / 3) 1
    let avg_quality := (chunks.map (fun c => c.quality_score.getD (1/2))).sum / n
    pyRound3 (avg_score * (6/10) + source_factor * (2/10) + avg_quality * (2/10))

/-- The response dict of `RAGEngine.query` (keys absent in a branch are
`none`). -/
structure QueryResponse where
  answer : String
  sources : List SourceOut
  confidence : ℚ
  mode : String
  prompt_tokens : Option ℕ := none
  context_chunks : Option ℕ := none
  error : Option String := none
deriving DecidableEq, Repr

/-- `RAGEngine.query`.  `gen` models `self.llm_client.generate` (its
exception becomes `Except.error`); a `None` `max_sources` argument falls
back to the configured value.  The outer `Option` propagates the positional
indexing error `search` itself can raise. -/
def RAGEngine.query (cfg : RAGConfig) (st : VectorStore) (embed : String → List ℚ)
    (gen : String → Except String String) (question : String)
    (document_ids : List String) (mode : String) (max_sources? : Option ℕ) :
    Option QueryResponse :=
  let max_sources := max_sources?.getD cfg.max_sources
  match st.search embed question (max_sources * 3) document_ids with
  | none => none
  | some search_results =>
    let relevant_chunks := (filter_chunks cfg search_results question).take max_sources
    if relevant_chunks = [] then
      some { answer := "I don\x27t have enough relevant information in the uploaded documents to answer this question.",
             sources := [], confidence := 0, mode := mode }
    else
      let context := build_context cfg relevant_chunks mode
      let prompt := build_prompt question context mode
      match gen prompt with
      | Except.ok answer =>
        some { answer := pyStrip answer
               sources := format_sources relevant_chunks
               confidence := calculate_confidence relevant_chunks
               mode := mode
               prompt_tokens := some (pySplit prompt).length
               context_chunks := some relevant_chunks.length }
      | Except.error e =>
        some { answer := "I encountered an error while processing your question: " ++ e
               sources := format_sources relevant_chunks
               confidence := 0
               mode := mode
               error := some e }

/-! ## Traces of `add_document` calls, and digit-string parsing -/

/-- One `add_document` invocation in a call trace. -/
structure AddCall where
  document_id : String
  chunks : List InChunk
  metadata : List (String × String)

/-- The `(chunk_id, counter)` pairs assigned over a whole sequence of
`add_document` calls, in assignment order (each call starts from the store's
current counter and the next call sees the updated store). -/
def traceAssigned (embed : String → List ℚ) : VectorStore → List AddCall → List (String × ℕ)
  | _, [] => []
  | st, c :: rest =>
    assignPairs c.document_id st.chunk_counter c.chunks ++
      traceAssigned embed (st.add_document embed c.document_id c.chunks c.metadata) rest

/-- Base-10 evaluation of a digit-character list, left to right. -/
def valFrom (a : ℕ) (l : List Char) : ℕ :=
  l.foldl (fun x ch => 10 * x + (ch.toNat - 48)) a

/-! ## Concrete instances used by witnesses and counterexamples -/

/-- A concrete embedding collaborator on a 2-dimensional index. -/
def embedC : String → List ℚ := fun s =>
  if s = "tA" then [1, 0]
  else if s = "tB" then [0, 1]
  else if s = "q" then [1, 0]
  else [0, 0]

/-- Store after ingesting document `A` (one chunk, text `tA`). -/
def stA : VectorStore := (mkStore 2).add_document embedC "A" [{ text := "tA" }] []

/-- Store after additionally ingesting document `B` (one chunk, text `tB`). -/
def stB : VectorStore := stA.add_document embedC "B" [{ text := "tB" }] []

/-- Store after removing document `A` again: the chunk dict shrinks to
`{"B_1": …}` but the index still holds both vectors. -/
def stR : VectorStore := (stB.remove_document "A").1

/-- A 50-character chunk text consisting of one 16-character word repeated
three times (highly repetitive, no terminal punctuation). -/
def cexText : String := "aaaaaaaaaaaaaaaa aaaaaaaaaaaaaaaa aaaaaaaaaaaaaaaa"

/-- A surviving candidate built on `cexText` (similarity score `1`). -/
def cexC4 : SearchResult :=
  { chunk_id := "d_0", document_id := "d", text := cexText, score := 1,
    metadata := { text := cexText } }

/-- Two candidates with disjoint word sets (Jaccard similarity `0`). -/
def cexD1 : SearchResult :=
  { chunk_id := "x_0", document_id := "x", text := "aa", score := 1,
    metadata := { text := "aa" } }

/-- Second dissimilar candidate. -/
def cexD2 : SearchResult :=
  { chunk_id := "x_1", document_id := "x", text := "bb", score := 1,
    metadata := { text := "bb" } }

/-- A pipeline candidate with perfect score and quality. -/
def cexConf : SearchResult :=
  { chunk_id := "x_0", document_id := "x", text := "aa", score := 1,
    metadata := { text := "aa" }, quality_score := some 1 }

/-- An embedding collaborator on a 1-dimensional index. -/
def embedOne : String → List ℚ := fun _ => [1]

/-- A store holding one relevant, long-enough chunk. -/
def stQ : VectorStore := (mkStore 1).add_document embedOne "D"
  [{ text := "machine learning is a method of data analysis that learns", page := some 3 }] []

/-- A generation collaborator whose `generate` call always raises. -/
def genFail : String → Except String String := fun _ => Except.error "boom"

/-- The raw search hit `search` returns on `stQ`. -/
def srQ : SearchResult :=
  { chunk_id := "D_0", document_id := "D",
    text := "machine learning is a method of data analysis that learns",
    score := 1,
    metadata := { text := "machine learning is a method of data analysis that learns",
                  page := some 3 } }

/-- The same hit after `_filter_chunks` set its quality score. -/
def srQScored : SearchResult := { srQ with quality_score := some (1/10) }

/-! ## Theorems -/

/-! ### Association-list (Python dict) lemmas -/

theorem lookup_none_key_ne {α : Type} {k : String} {m : List (String × α)}
    (h : List.lookup k m = none) : ∀ p ∈ m, p.1 ≠ k := by
  induction m with
  | nil => intro p hp; simp at hp
  | cons q rest ih =>
    obtain ⟨k', v⟩ := q
    by_cases hk : k = k'
    · subst hk
      simp [List.lookup_cons] at h
    · have hbe : (k == k') = false := beq_eq_false_iff_ne.mpr hk
      simp only [List.lookup_cons, hbe] at h
      intro p hp
      rcases List.mem_cons.mp hp with hq | hp'
      · subst hq
        exact fun hc => hk hc.symm
      · exact ih h p hp'

theorem dictDelete_self_of_lookup_none {α : Type} {k : String} {m : List (String × α)}
    (h : List.lookup k m = none) : dictDelete k m = m := by
  unfold dictDelete
  rw [List.filter_eq_self]
  intro p hp
  simpa using lookup_none_key_ne h p hp

theorem lookup_dictDelete_self {α : Type} (k : String) (m : List (String × α)) :
    List.lookup k (dictDelete k m) = none := by
  induction m with
  | nil => rfl
  | cons q rest ih =>
    obtain ⟨k', v⟩ := q
    by_cases hk : k' = k
    · subst hk
      have h1 : (k' != k') = false := by simp
      simpa [dictDelete, List.filter, h1] using ih
    · have h1 : (k' != k) = true := by simpa using hk
      have h2 : (k == k') = false := beq_eq_false_iff_ne.mpr (Ne.symm hk)
      simp only [dictDelete, List.filter, h1] at ih ⊢
      simp only [List.lookup_cons, h2]
      exact ih

/-- The chunk-deletion loop of `remove_document` filters out exactly the
listed chunk ids. -/
theorem removeChunks_eq_filter (ids : List String) :
    ∀ m : List (String × ChunkData),
      ids.foldl (fun m cid => if (List.lookup cid m).isSome then dictDelete cid m else m) m
        = m.filter (fun p => !(ids.contains p.1)) := by
  induction ids with
  | nil => intro m; simp
  | cons c rest ih =>
    intro m
    have hstep :
        (if (List.lookup c m).isSome then dictDelete c m else m) = dictDelete c m := by
      by_cases h : (List.lookup c m).isSome
      · rw [if_pos h]
      · rw [if_neg h]
        rw [Option.not_isSome_iff_eq_none] at h
        exact (dictDelete_self_of_lookup_none h).symm
    rw [List.foldl_cons, hstep, ih (dictDelete c m)]
    unfold dictDelete
    rw [List.filter_filter]
    apply List.filter_congr
    intro p _
    by_cases h1 : p.1 = c <;> by_cases h2 : p.1 ∈ rest <;>
      simp [List.contains_cons, h1, h2, bne]

/-! ### C7: `remove_document` -/

/-- C7: `remove_document` returns `True` iff the document was present; when
present it removes the metadata entry and all of the listed chunk records
(hence, in states where the document lists all of its chunks, every chunk
record of that document) while leaving the similarity index untouched; when
absent it returns `False` and changes nothing. -/
theorem remove_document_spec (st : VectorStore) (document_id : String) :
    (List.lookup document_id st.documents = none →
      st.remove_document document_id = (st, false)) ∧
    (∀ dd, List.lookup document_id st.documents = some dd →
      (st.remove_document document_id).2 = true ∧
      (st.remove_document document_id).1.index_vecs = st.index_vecs ∧
      List.lookup document_id (st.remove_document document_id).1.documents = none ∧
      (st.remove_document document_id).1.chunks
        = st.chunks.filter (fun p => !(dd.chunk_ids.contains p.1)) ∧
      ((∀ p ∈ st.chunks, p.2.document_id = document_id → p.1 ∈ dd.chunk_ids) →
        ∀ p ∈ (st.remove_document document_id).1.chunks, p.2.document_id ≠ document_id)) := by
  constructor
  · intro h
    unfold VectorStore.remove_document
    rw [h]
  · intro dd hdd
    have hred : st.remove_document document_id =
        ({ st with
            chunks := dd.chunk_ids.foldl
              (fun m cid => if (List.lookup cid m).isSome then dictDelete cid m else m)
              st.chunks
            documents := dictDelete document_id st.documents }, true) := by
      unfold VectorStore.remove_document
      rw [hdd]
    rw [hred]
    refine ⟨rfl, rfl, lookup_dictDelete_self _ _, removeChunks_eq_filter _ _, ?_⟩
    intro hall p hp
    rw [removeChunks_eq_filter] at hp
    rw [List.mem_filter] at hp
    obtain ⟨hmem, hkeep⟩ := hp
    intro hdoc
    have := hall p hmem hdoc
    simp [this] at hkeep

/-- C7 witness: on the concrete two-document store `stB`, removing `"A"`
returns `true`, leaves the index untouched, deletes the metadata entry and
every chunk record of `"A"`; removing an absent id returns `false` and
changes nothing. -/
theorem remove_document_spec_witness :
    (stB.remove_document "A").2 = true ∧
    (stB.remove_document "A").1.index_vecs = stB.index_vecs ∧
    List.lookup "A" (stB.remove_document "A").1.documents = none ∧
    (∀ p ∈ (stB.remove_document "A").1.chunks, p.2.document_id ≠ "A") ∧
    stB.remove_document "missing" = (stB, false) := by
  have hdd : List.lookup "A" stB.documents
      = some { metadata := [], chunk_count := 1, chunk_ids := ["A_0"] } := by
    with_unfolding_all rfl
  have h := (remove_document_spec stB "A").2 _ hdd
  have hall : ∀ p ∈ stB.chunks, p.2.document_id = "A" →
      p.1 ∈ ({ metadata := [], chunk_count := 1, chunk_ids := ["A_0"] } : DocData).chunk_ids := by
    have hchunks : stB.chunks =
        [("A_0", { document_id := "A", text := "tA",
                   metadata := { text := "tA", page := none }, chunk_index := 0 }),
         ("B_1", { document_id := "B", text := "tB",
                   metadata := { text := "tB", page := none }, chunk_index := 0 })] := by
      with_unfolding_all rfl
    rw [hchunks]
    intro p hp hdoc
    rcases List.mem_cons.mp hp with h1 | hp'
    · subst h1; simp
    · rcases List.mem_cons.mp hp' with h2 | hp''
      · subst h2; simp at hdoc
      · simp at hp''
  refine ⟨h.1, h.2.1, h.2.2.1, h.2.2.2.2 hall, ?_⟩
  exact (remove_document_spec stB "missing").1 (by with_unfolding_all rfl)

/-! ### Decimal representation: `Nat.repr` is injective, and chunk ids
determine their counter -/

theorem toDigitsCore_zero (n : ℕ) (ds : List Char) :
    Nat.toDigitsCore 10 0 n ds = ds := rfl

theorem toDigitsCore_succ (fuel n : ℕ) (ds : List Char) :
    Nat.toDigitsCore 10 (fuel + 1) n ds =
      if n / 10 = 0 then Nat.digitChar (n % 10) :: ds
      else Nat.toDigitsCore 10 fuel (n / 10) (Nat.digitChar (n % 10) :: ds) := rfl

theorem toDigitsCore_shift : ∀ (fuel n : ℕ) (ds : List Char),
    Nat.toDigitsCore 10 fuel n ds = Nat.toDigitsCore 10 fuel n [] ++ ds := by
  intro fuel
  induction fuel with
  | zero => intro n ds; simp [toDigitsCore_zero]
  | succ fuel ih =>
    intro n ds
    rw [toDigitsCore_succ, toDigitsCore_succ]
    by_cases h : n / 10 = 0
    · simp [h]
    · rw [if_neg h, if_neg h, ih (n / 10) (Nat.digitChar (n % 10) :: ds),
        ih (n / 10) [Nat.digitChar (n % 10)]]
      simp

theorem valFrom_append (a : ℕ) (l1 l2 : List Char) :
    valFrom a (l1 ++ l2) = valFrom (valFrom a l1) l2 := by
  simp [valFrom, List.foldl_append]

theorem digitChar_val (m : ℕ) (h : m < 10) : (Nat.digitChar m).toNat - 48 = m := by
  interval_cases m <;> decide

theorem digitChar_ne_underscore (m : ℕ) : Nat.digitChar m ≠ '_' := by
  by_cases h : m < 16
  · interval_cases m <;> decide
  · have hstar : Nat.digitChar m = '*' := by
      unfold Nat.digitChar
      rw [if_neg (by omega : ¬ m = 0), if_neg (by omega : ¬ m = 1),
        if_neg (by omega : ¬ m = 2), if_neg (by omega : ¬ m = 3),
        if_neg (by omega : ¬ m = 4), if_neg (by omega : ¬ m = 5),
        if_neg (by omega : ¬ m = 6), if_neg (by omega : ¬ m = 7),
        if_neg (by omega : ¬ m = 8), if_neg (by omega : ¬ m = 9),
        if_neg (by omega : ¬ m = 10), if_neg (by omega : ¬ m = 11),
        if_neg (by omega : ¬ m = 12), if_neg (by omega : ¬ m = 13),
        if_neg (by omega : ¬ m = 14), if_neg (by omega : ¬ m = 15)]
    rw [hstar]
    decide

theorem valFrom_toDigitsCore : ∀ (fuel n : ℕ), n < 10 ^ fuel →
    valFrom 0 (Nat.toDigitsCore 10 fuel n []) = n := by
  intro fuel
  induction fuel with
  | zero =>
    intro n hn
    have h0 : n = 0 := by simpa using Nat.lt_one_iff.mp (by simpa using hn)
    subst h0
    rfl
  | succ fuel ih =>
    intro n hn
    rw [toDigitsCore_succ]
    have hd := digitChar_val (n % 10) (Nat.mod_lt n (by norm_num))
    by_cases h : n / 10 = 0
    · rw [if_pos h]
      have : valFrom 0 [Nat.digitChar (n % 10)] = (Nat.digitChar (n % 10)).toNat - 48 := by
        simp [valFrom]
      rw [this, hd]
      omega
    · have hdiv : n / 10 < 10 ^ fuel := by
        have hlt : n < 10 ^ fuel * 10 := by
          rw [← pow_succ]
          exact hn
        exact (Nat.div_lt_iff_lt_mul (by norm_num)).mpr hlt
      rw [if_neg h, toDigitsCore_shift, valFrom_append, ih _ hdiv]
      have : valFrom (n / 10) [Nat.digitChar (n % 10)]
          = 10 * (n / 10) + ((Nat.digitChar (n % 10)).toNat - 48) := by
        simp [valFrom]
      rw [this, hd]
      omega

theorem Nat_repr_inj {m n : ℕ} (h : Nat.repr m = Nat.repr n) : m = n := by
  have hm : m < 10 ^ (m + 1) :=
    lt_of_lt_of_le (Nat.lt_pow_self (by norm_num) m)
      (Nat.pow_le_pow_right (by norm_num) (Nat.le_succ m))
  have hn : n < 10 ^ (n + 1) :=
    lt_of_lt_of_le (Nat.lt_pow_self (by norm_num) n)
      (Nat.pow_le_pow_right (by norm_num) (Nat.le_succ n))
  have hdata : Nat.toDigits 10 m = Nat.toDigits 10 n := congrArg String.data h
  calc m = valFrom 0 (Nat.toDigits 10 m) := (valFrom_toDigitsCore (m + 1) m hm).symm
    _ = valFrom 0 (Nat.toDigits 10 n) := congrArg _ hdata
    _ = n := valFrom_toDigitsCore (n + 1) n hn

theorem toDigitsCore_chars : ∀ (fuel n : ℕ) (ds : List Char),
    (∀ ch ∈ ds, ch ≠ '_') → ∀ ch ∈ Nat.toDigitsCore 10 fuel n ds, ch ≠ '_' := by
  intro fuel
  induction fuel with
  | zero => intro n ds hds; simpa [toDigitsCore_zero] using hds
  | succ fuel ih =>
    intro n ds hds
    rw [toDigitsCore_succ]
    by_cases h : n / 10 = 0
    · rw [if_pos h]
      intro ch hch
      rcases List.mem_cons.mp hch with rfl | hmm2
      · exact digitChar_ne_underscore _
      · exact hds ch hmm2
    · rw [if_neg h]
      apply ih
      intro ch hch
      rcases List.mem_cons.mp hch with rfl | hmm2
      · exact digitChar_ne_underscore _
      · exact hds ch hmm2

theorem repr_no_underscore (n : ℕ) : ∀ ch ∈ (Nat.repr n).data, ch ≠ '_' := by
  intro ch hch
  exact toDigitsCore_chars (n + 1) n [] (by simp) ch hch

theorem takeWhile_to_sep : ∀ (t l : List Char), (∀ ch ∈ t, ch ≠ '_') →
    (t ++ '_' :: l).takeWhile (fun ch => ch != '_') = t := by
  intro t
  induction t with
  | nil =>
    intro l _
    simp [List.takeWhile_cons]
  | cons c cs ih =>
    intro l h
    have hc : (c != '_') = true := by simpa using h c (List.mem_cons_self c cs)
    simp only [List.cons_append, List.takeWhile_cons, hc, if_true]
    rw [ih l (fun ch hch => h ch (List.mem_cons_of_mem c hch))]

/-- A chunk id `f"{d}_{c}"` determines its counter component: the counter is
recovered from the digit run after the last underscore. -/
theorem chunkIdOf_counter_inj {d1 d2 : String} {c1 c2 : ℕ}
    (h : chunkIdOf d1 c1 = chunkIdOf d2 c2) : c1 = c2 := by
  have hdata : d1.data ++ '_' :: (Nat.repr c1).data
      = d2.data ++ '_' :: (Nat.repr c2).data := by
    have h2 := congrArg String.data h
    simpa [chunkIdOf, String.data_append] using h2
  have hrev := congrArg List.reverse hdata
  simp only [List.reverse_append, List.reverse_cons, List.append_assoc,
    List.singleton_append] at hrev
  have ht := congrArg (List.takeWhile (fun ch => ch != '_')) hrev
  rw [takeWhile_to_sep _ _ (fun ch hch => repr_no_underscore c1 ch (List.mem_reverse.mp hch)),
    takeWhile_to_sep _ _ (fun ch hch => repr_no_underscore c2 ch (List.mem_reverse.mp hch))] at ht
  have hdig : (Nat.repr c1).data = (Nat.repr c2).data := by
    have h3 := congrArg List.reverse ht
    simpa using h3
  exact Nat_repr_inj (congrArg String.mk hdig)

/-! ### C5: chunk id uniqueness and counter monotonicity -/

theorem assignPairs_mem {d : String} : ∀ {cs : List InChunk} {c0 : ℕ} {p : String × ℕ},
    p ∈ assignPairs d c0 cs →
    c0 ≤ p.2 ∧ p.2 < c0 + cs.length ∧ p.1 = chunkIdOf d p.2 := by
  intro cs
  induction cs with
  | nil => intro c0 p hp; simp [assignPairs] at hp
  | cons ch cs ih =>
    intro c0 p hp
    rcases List.mem_cons.mp hp with rfl | hp'
    · refine ⟨le_rfl, ?_, rfl⟩
      simp only [List.length_cons]
      omega
    · have h1 := ih hp'
      refine ⟨by omega, ?_, h1.2.2⟩
      have h2 := h1.2.1
      simp only [List.length_cons]
      omega

theorem assignPairs_pairwise {d : String} : ∀ (cs : List InChunk) (c0 : ℕ),
    List.Pairwise (fun p q : String × ℕ => p.2 < q.2) (assignPairs d c0 cs) := by
  intro cs
  induction cs with
  | nil => intro c0; simp [assignPairs]
  | cons ch cs ih =>
    intro c0
    refine List.Pairwise.cons ?_ (ih (c0 + 1))
    intro q hq
    have := assignPairs_mem hq
    simp only
    omega

theorem traceAssigned_mem (embed : String → List ℚ) :
    ∀ (calls : List AddCall) (st : VectorStore) (p : String × ℕ),
      p ∈ traceAssigned embed st calls →
      st.chunk_counter ≤ p.2 ∧ ∃ d, p.1 = chunkIdOf d p.2 := by
  intro calls
  induction calls with
  | nil => intro st p hp; simp [traceAssigned] at hp
  | cons c rest ih =>
    intro st p hp
    rcases List.mem_append.mp hp with hp1 | hp2
    · have := assignPairs_mem hp1
      exact ⟨this.1, c.document_id, this.2.2⟩
    · have := ih (st.add_document embed c.document_id c.chunks c.metadata) p hp2
      refine ⟨le_trans ?_ this.1, this.2⟩
      simp [VectorStore.add_document]

theorem traceAssigned_pairwise (embed : String → List ℚ) :
    ∀ (calls : List AddCall) (st : VectorStore),
      List.Pairwise (fun p q : String × ℕ => p.2 < q.2) (traceAssigned embed st calls) := by
  intro calls
  induction calls with
  | nil => intro st; simp [traceAssigned]
  | cons c rest ih =>
    intro st
    rw [traceAssigned, List.pairwise_append]
    refine ⟨assignPairs_pairwise _ _, ih _, ?_⟩
    intro p hp q hq
    have h1 := assignPairs_mem hp
    have h2 := traceAssigned_mem embed rest _ q hq
    have h3 : (st.add_document embed c.document_id c.chunks c.metadata).chunk_counter
        = st.chunk_counter + c.chunks.length := rfl
    rw [h3] at h2
    omega

/-- C5: over any sequence of `add_document` calls on one store instance, the
counter components of the assigned chunk ids are strictly increasing in
assignment order, and the assigned id strings are pairwise distinct. -/
theorem chunk_ids_unique_and_monotone (embed : String → List ℚ) (dim : ℕ)
    (calls : List AddCall) :
    ((traceAssigned embed (mkStore dim) calls).map Prod.snd).Pairwise (· < ·) ∧
    ((traceAssigned embed (mkStore dim) calls).map Prod.fst).Nodup := by
  have hpw := traceAssigned_pairwise embed calls (mkStore dim)
  constructor
  · exact List.pairwise_map.mpr hpw
  · apply List.pairwise_map.mpr
    have hmem := traceAssigned_mem embed calls (mkStore dim)
    apply List.Pairwise.imp_of_mem ?_ hpw
    intro p q hp hq hlt heq
    obtain ⟨dp, hdp⟩ := (hmem p hp).2
    obtain ⟨dq, hdq⟩ := (hmem q hq).2
    rw [hdp, hdq] at heq
    exact absurd (chunkIdOf_counter_inj heq) (by omega)

/-! ### More dict lemmas, for `add_document` re-ingestion -/

theorem dictSet_fresh {α : Type} {k : String} {v : α} :
    ∀ {m : List (String × α)}, (∀ p ∈ m, p.1 ≠ k) → dictSet k v m = m ++ [(k, v)] := by
  intro m
  induction m with
  | nil => intro _; rfl
  | cons q rest ih =>
    intro h
    obtain ⟨k', v'⟩ := q
    have hne : k' ≠ k := h (k', v') (List.mem_cons_self _ _)
    simp only [dictSet, if_neg hne, List.cons_append]
    rw [ih (fun p hp => h p (List.mem_cons_of_mem _ hp))]

theorem entries_foldl_append :
    ∀ (entries : List (String × ChunkData)) (m : List (String × ChunkData)),
      (∀ e ∈ entries, ∀ p ∈ m, p.1 ≠ e.1) →
      ((entries.map Prod.fst).Nodup) →
      entries.foldl (fun m e => dictSet e.1 e.2 m) m = m ++ entries := by
  intro entries
  induction entries with
  | nil => intro m _ _; simp
  | cons e rest ih =>
    intro m hfresh hnd
    rw [List.map_cons, List.nodup_cons] at hnd
    rw [List.foldl_cons, dictSet_fresh (hfresh e (List.mem_cons_self _ _))]
    rw [ih (m ++ [(e.1, e.2)]) ?_ hnd.2]
    · simp
    · intro e' he' p hp
      rcases List.mem_append.mp hp with hp1 | hp2
      · exact hfresh e' (List.mem_cons_of_mem _ he') p hp1
      · have hpe : p = (e.1, e.2) := by simpa using hp2
        subst hpe
        intro hcontra
        exact hnd.1 (hcontra ▸ List.mem_map_of_mem Prod.fst he')

theorem buildChunkEntries_fst (d : String) : ∀ (cs : List InChunk) (c0 pos : ℕ),
    (buildChunkEntries d c0 pos cs).map Prod.fst = (assignPairs d c0 cs).map Prod.fst := by
  intro cs
  induction cs with
  | nil => intro c0 pos; rfl
  | cons ch cs ih =>
    intro c0 pos
    simp only [buildChunkEntries, assignPairs, List.map_cons]
    rw [ih (c0 + 1) (pos + 1)]

theorem buildChunkEntries_length (d : String) : ∀ (cs : List InChunk) (c0 pos : ℕ),
    (buildChunkEntries d c0 pos cs).length = cs.length := by
  intro cs
  induction cs with
  | nil => intro c0 pos; rfl
  | cons ch cs ih =>
    intro c0 pos
    simp only [buildChunkEntries, List.length_cons]
    rw [ih (c0 + 1) (pos + 1)]

theorem assignPairs_fst_nodup (d : String) (cs : List InChunk) (c0 : ℕ) :
    ((assignPairs d c0 cs).map Prod.fst).Nodup := by
  apply List.pairwise_map.mpr
  apply List.Pairwise.imp_of_mem ?_ (assignPairs_pairwise cs c0)
  intro p q hp hq hlt heq
  rw [(assignPairs_mem hp).2.2, (assignPairs_mem hq).2.2] at heq
  exact absurd (chunkIdOf_counter_inj heq) (by omega)

theorem buildChunkEntries_key_mem {d : String} {cs : List InChunk} {c0 pos : ℕ}
    {p : String × ChunkData} (hp : p ∈ buildChunkEntries d c0 pos cs) :
    ∃ c, c0 ≤ c ∧ p.1 = chunkIdOf d c := by
  have h1 : p.1 ∈ (buildChunkEntries d c0 pos cs).map Prod.fst :=
    List.mem_map_of_mem Prod.fst hp
  rw [buildChunkEntries_fst] at h1
  obtain ⟨q, hq, hqe⟩ := List.mem_map.mp h1
  have h2 := assignPairs_mem hq
  exact ⟨q.2, h2.1, by rw [← hqe, h2.2.2]⟩

theorem lookup_of_mem_nodup {α : Type} :
    ∀ {m : List (String × α)}, (m.map Prod.fst).Nodup →
      ∀ p ∈ m, List.lookup p.1 m = some p.2 := by
  intro m
  induction m with
  | nil => intro _ p hp; simp at hp
  | cons q rest ih =>
    intro hnd p hp
    obtain ⟨k', v'⟩ := q
    rw [List.map_cons, List.nodup_cons] at hnd
    rcases List.mem_cons.mp hp with hq | hp'
    · subst hq
      simp [List.lookup_cons]
    · have hne : (p.1 == k') = false := by
        apply beq_eq_false_iff_ne.mpr
        intro hcontra
        have hmem2 : p.1 ∈ rest.map Prod.fst := List.mem_map_of_mem Prod.fst hp'
        rw [hcontra] at hmem2
        exact hnd.1 hmem2
      simp only [List.lookup_cons, hne]
      exact ih hnd.2 p hp'

theorem lookup_append_left {α : Type} {k : String} {r : List (String × α)} {v : α} :
    ∀ {l : List (String × α)}, List.lookup k l = some v →
      List.lookup k (l ++ r) = some v := by
  intro l
  induction l with
  | nil => intro h; simp at h
  | cons q rest ih =>
    obtain ⟨k', v'⟩ := q
    intro h
    rw [List.lookup_cons] at h
    rcases hbe : (k == k') with _ | _
    · rw [hbe] at h
      rw [List.cons_append, List.lookup_cons, hbe]
      exact ih h
    · rw [hbe] at h
      rw [List.cons_append, List.lookup_cons, hbe]
      exact h

theorem lookup_append_right {α : Type} {k : String} {r : List (String × α)} :
    ∀ {l : List (String × α)}, (∀ p ∈ l, p.1 ≠ k) →
      List.lookup k (l ++ r) = List.lookup k r := by
  intro l
  induction l with
  | nil => intro _; rfl
  | cons q rest ih =>
    obtain ⟨k', v'⟩ := q
    intro h
    have hne : (k == k') = false :=
      beq_eq_false_iff_ne.mpr (fun hc => h (k', v') (List.mem_cons_self _ _) hc.symm)
    rw [List.cons_append, List.lookup_cons, hne]
    exact ih (fun p hp => h p (List.mem_cons_of_mem _ hp))

theorem lookup_dictSet {α : Type} (k : String) (v : α) :
    ∀ m : List (String × α), List.lookup k (dictSet k v m) = some v := by
  intro m
  induction m with
  | nil => simp [dictSet, List.lookup_cons]
  | cons q rest ih =>
    obtain ⟨k', v'⟩ := q
    by_cases hk : k' = k
    · simp [dictSet, hk, List.lookup_cons]
    · have hne : (k == k') = false := beq_eq_false_iff_ne.mpr (Ne.symm hk)
      simp only [dictSet, if_neg hk, List.lookup_cons, hne]
      exact ih

theorem dictModify_dictSet {α : Type} (k : String) (f : α → α) (v : α) :
    ∀ m : List (String × α), dictModify k f (dictSet k v m) = dictSet k (f v) m := by
  intro m
  induction m with
  | nil => simp [dictSet, dictModify]
  | cons q rest ih =>
    obtain ⟨k', v'⟩ := q
    by_cases hk : k' = k
    · simp [dictSet, dictModify, hk]
    · simp only [dictSet, if_neg hk, dictModify, ih]

theorem collectChunks_of_lookup :
    ∀ (entries : List (String × ChunkData)) (big : List (String × ChunkData)),
      (∀ p ∈ entries, List.lookup p.1 big = some p.2) →
      collectChunks big (entries.map Prod.fst)
        = some (entries.map (fun p => ⟨p.1, p.2.text, p.2.metadata⟩)) := by
  intro entries
  induction entries with
  | nil => intro big _; rfl
  | cons e rest ih =>
    intro big h
    simp only [List.map_cons, collectChunks]
    rw [h e (List.mem_cons_self _ _), ih big (fun p hp => h p (List.mem_cons_of_mem _ hp))]

/-! ### C10: re-ingesting an existing document id -/

/-- C10: calling `add_document` again with an already-present `document_id`
replaces the metadata entry so that `chunk_ids` lists only the new batch,
leaves every old chunk record in the chunk dict (so `total_chunks` counts
both batches), appends the new vectors to the index without removing the old
ones, and makes `get_document_chunks` return exactly the second batch. -/
theorem add_document_reingest (st : VectorStore) (embed : String → List ℚ)
    (d : String) (newChunks : List InChunk) (meta : List (String × String)) (dd : DocData)
    (_hdd : List.lookup d st.documents = some dd)
    (hctr : ∀ p ∈ st.chunks, ∃ d' c, p.1 = chunkIdOf d' c ∧ c < st.chunk_counter)
    (hnd : (st.chunks.map Prod.fst).Nodup) :
    List.lookup d (st.add_document embed d newChunks meta).documents
      = some ⟨meta, newChunks.length,
          (buildChunkEntries d st.chunk_counter 0 newChunks).map Prod.fst⟩ ∧
    (st.add_document embed d newChunks meta).chunks
      = st.chunks ++ buildChunkEntries d st.chunk_counter 0 newChunks ∧
    (∀ p ∈ st.chunks,
      List.lookup p.1 (st.add_document embed d newChunks meta).chunks = some p.2) ∧
    (st.add_document embed d newChunks meta).chunks.length
      = st.chunks.length + newChunks.length ∧
    (st.add_document embed d newChunks meta).index_vecs
      = st.index_vecs ++ newChunks.map (fun ch => embed ch.text) ∧
    (st.add_document embed d newChunks meta).get_document_chunks d
      = some ((buildChunkEntries d st.chunk_counter 0 newChunks).map
          (fun p => ⟨p.1, p.2.text, p.2.metadata⟩)) := by
  have hfresh : ∀ e ∈ buildChunkEntries d st.chunk_counter 0 newChunks,
      ∀ p ∈ st.chunks, p.1 ≠ e.1 := by
    intro e he p hp hcontra
    obtain ⟨c, hc, hce⟩ := buildChunkEntries_key_mem he
    obtain ⟨d', c', hpe, hc'⟩ := hctr p hp
    rw [hpe, hce] at hcontra
    have := chunkIdOf_counter_inj hcontra
    omega
  have hndnew : ((buildChunkEntries d st.chunk_counter 0 newChunks).map Prod.fst).Nodup := by
    rw [buildChunkEntries_fst]
    exact assignPairs_fst_nodup d newChunks st.chunk_counter
  have hchunks : (st.add_document embed d newChunks meta).chunks
      = st.chunks ++ buildChunkEntries d st.chunk_counter 0 newChunks := by
    show (buildChunkEntries d st.chunk_counter 0 newChunks).foldl
        (fun m e => dictSet e.1 e.2 m) st.chunks = _
    exact entries_foldl_append _ _ hfresh hndnew
  have hdocs : List.lookup d (st.add_document embed d newChunks meta).documents
      = some ⟨meta, newChunks.length,
          (buildChunkEntries d st.chunk_counter 0 newChunks).map Prod.fst⟩ := by
    show List.lookup d (dictModify d _ (dictSet d ⟨meta, newChunks.length, []⟩ st.documents)) = _
    rw [dictModify_dictSet]
    have := lookup_dictSet d
      (⟨meta, newChunks.length,
        [] ++ (buildChunkEntries d st.chunk_counter 0 newChunks).map Prod.fst⟩ : DocData)
      st.documents
    simpa using this
  have holdrec : ∀ p ∈ st.chunks,
      List.lookup p.1 (st.add_document embed d newChunks meta).chunks = some p.2 := by
    intro p hp
    rw [hchunks]
    exact lookup_append_left (lookup_of_mem_nodup hnd p hp)
  refine ⟨hdocs, hchunks, holdrec, ?_, rfl, ?_⟩
  · rw [hchunks, List.length_append, buildChunkEntries_length]
  · unfold VectorStore.get_document_chunks
    rw [hdocs]
    apply collectChunks_of_lookup
    intro p hp
    rw [hchunks, lookup_append_right (fun q hq => hfresh p hp q hq)]
    exact lookup_of_mem_nodup hndnew p hp

/-- C10 witness: re-ingesting document `"A"` (first batch `tA`, second batch
`tB`) on the concrete store `stA`: the metadata entry now lists only
`"A_1"`, both chunk records and both vectors are present, and
`get_document_chunks` returns only the second batch. -/
theorem add_document_reingest_witness :
    List.lookup "A" (stA.add_document embedC "A" [{ text := "tB" }] []).documents
      = some ⟨[], 1, ["A_1"]⟩ ∧
    (stA.add_document embedC "A" [{ text := "tB" }] []).chunks.length = 2 ∧
    (stA.add_document embedC "A" [{ text := "tB" }] []).index_vecs
      = [embedC "tA", embedC "tB"] ∧
    (stA.add_document embedC "A" [{ text := "tB" }] []).get_document_chunks "A"
      = some [⟨"A_1", "tB", { text := "tB", page := none }⟩] := by
  have hchunksA : stA.chunks =
      [("A_0", { document_id := "A", text := "tA",
                 metadata := { text := "tA", page := none }, chunk_index := 0 })] := by
    with_unfolding_all rfl
  have hdd : List.lookup "A" stA.documents = some ⟨[], 1, ["A_0"]⟩ := by
    with_unfolding_all rfl
  have hctr : ∀ p ∈ stA.chunks, ∃ d' c, p.1 = chunkIdOf d' c ∧ c < stA.chunk_counter := by
    rw [hchunksA]
    intro p hp
    rcases List.mem_cons.mp hp with rfl | hp'
    · refine ⟨"A", 0, ?_, ?_⟩
      · with_unfolding_all rfl
      · show 0 < stA.chunk_counter
        rw [show stA.chunk_counter = 1 from by with_unfolding_all rfl]
        norm_num
    · simp at hp'
  have hnd : (stA.chunks.map Prod.fst).Nodup := by
    rw [hchunksA]
    simp
  have h := add_document_reingest stA embedC "A" [{ text := "tB" }] [] ⟨[], 1, ["A_0"]⟩
    hdd hctr hnd
  have hbuild : (buildChunkEntries "A" stA.chunk_counter 0 [{ text := "tB" }]).map Prod.fst
      = ["A_1"] := by
    with_unfolding_all rfl
  have hbuild2 : (buildChunkEntries "A" stA.chunk_counter 0 [{ text := "tB" }]).map
      (fun p => (⟨p.1, p.2.text, p.2.metadata⟩ : ChunkOut))
      = [⟨"A_1", "tB", { text := "tB", page := none }⟩] := by
    with_unfolding_all rfl
  refine ⟨?_, ?_, ?_, ?_⟩
  · rw [h.1, hbuild]
    rfl
  · rw [h.2.2.2.1, hchunksA]
    rfl
  · rw [h.2.2.2.2.1]
    with_unfolding_all rfl
  · rw [h.2.2.2.2.2, hbuild2]

/-! ### C9: persistence round-trip -/

/-- C9: saving a store and loading the snapshot (into any store instance)
yields identical `(total_documents, total_chunks, index_size, dimension)`
statistics. -/
theorem save_load_roundtrip_stats (st st0 : VectorStore) :
    (st0.load st.save).get_stats = st.get_stats := rfl

/-! ### C4: quality-score range -/

theorem ite_lower {c : Prop} [Decidable c] {a b L : ℚ} (ha : L ≤ a) (hb : L ≤ b) :
    L ≤ if c then a else b := by
  split
  · exact ha
  · exact hb

/-- C4 (amended): the quality score is clamped above at `1`, and its only
negative contribution is the `-0.1` short-chunk penalty, so it always lies
in `[-0.1, 1]` (for any chunk, question and keyword list). -/
theorem calculate_quality_score_bounds (chunk : SearchResult) (question : String)
    (question_keywords : List String) :
    -(1/10) ≤ calculate_quality_score chunk question question_keywords ∧
    calculate_quality_score chunk question question_keywords ≤ 1 := by
  unfold calculate_quality_score
  refine ⟨le_min ?_ (by norm_num), min_le_right _ _⟩
  have base : -(1/10 : ℚ) = 0 + -(1/10) + 0 + 0 + 0 + 0 := by norm_num
  refine le_trans (le_of_eq base) ?_
  gcongr
  · exact ite_lower (by positivity) le_rfl
  · exact ite_lower (by norm_num)
      (ite_lower (by norm_num) (ite_lower le_rfl (by norm_num)))
  · exact ite_lower (by norm_num) le_rfl
  · exact ite_lower (by positivity) le_rfl
  · exact ite_lower (by norm_num) le_rfl
  · exact ite_lower (by norm_num) le_rfl

/-- C4 counterexample: the chunk `cexC4` survives the relevance filter
(score `1 ≥ 0.3`, stripped length `50 ≥ 50`), yet its quality score for the
query `"q"` is `-1/30 < 0`, refuting the claimed lower bound `0`. -/
theorem calculate_quality_score_negative :
    (3/10 : ℚ) ≤ cexC4.score ∧ 50 ≤ (pyStrip cexC4.text).length ∧
    calculate_quality_score cexC4 "q" (extract_keywords "q") < 0 := by
  refine ⟨?_, ?_, ?_⟩
  · show (3/10 : ℚ) ≤ 1
    norm_num
  · decide
  · have h : calculate_quality_score cexC4 "q" (extract_keywords "q") = -(1/30) := by
      with_unfolding_all rfl
    rw [h]
    norm_num

/-! ### C3: the diversity filter -/

theorem calculate_text_similarity_comm (t1 t2 : String) :
    calculate_text_similarity t1 t2 = calculate_text_similarity t2 t1 := by
  simp only [calculate_text_similarity]
  rw [Finset.inter_comm, Finset.union_comm]
  by_cases h1 : wordSet t1 = ∅ <;> by_cases h2 : wordSet t2 = ∅ <;> simp [h1, h2]

theorem ensureDiversityGo_spec (ms : ℕ) (th : ℚ) :
    ∀ (cs kept : List SearchResult),
      kept.length < ms →
      kept.Pairwise (fun a b => calculate_text_similarity a.text b.text ≤ th) →
      (ensureDiversityGo ms th cs kept).length ≤ ms ∧
      (∃ t, ensureDiversityGo ms th cs kept = kept ++ t) ∧
      (ensureDiversityGo ms th cs kept).Pairwise
        (fun a b => calculate_text_similarity a.text b.text ≤ th) := by
  intro cs
  induction cs with
  | nil =>
    intro kept hlen hpw
    exact ⟨le_of_lt hlen, ⟨[], by simp [ensureDiversityGo]⟩, hpw⟩
  | cons c cs ih =>
    intro kept hlen hpw
    rcases hsim : kept.any
        (fun s => decide (th < calculate_text_similarity c.text s.text)) with _ | _
    · -- not too similar to any kept chunk: c is appended
      have hred : ensureDiversityGo ms th (c :: cs) kept =
          if ms ≤ (kept ++ [c]).length then kept ++ [c]
          else ensureDiversityGo ms th cs (kept ++ [c]) := by
        rw [ensureDiversityGo, hsim]
        simp
      have hcross : ∀ s ∈ kept, calculate_text_similarity s.text c.text ≤ th := by
        intro s hs
        have h1 := List.any_eq_false.mp hsim s hs
        have h2 : ¬ (th < calculate_text_similarity c.text s.text) := by simpa using h1
        rw [calculate_text_similarity_comm]
        exact not_lt.mp h2
      have hpw' : (kept ++ [c]).Pairwise
          (fun a b => calculate_text_similarity a.text b.text ≤ th) := by
        rw [List.pairwise_append]
        refine ⟨hpw, List.pairwise_singleton _ _, ?_⟩
        intro a ha b hb
        rw [List.mem_singleton] at hb
        subst hb
        exact hcross a ha
      rw [hred]
      by_cases hstop : ms ≤ (kept ++ [c]).length
      · rw [if_pos hstop]
        refine ⟨?_, ⟨[c], rfl⟩, hpw'⟩
        rw [List.length_append, List.length_singleton]
        omega
      · rw [if_neg hstop]
        have hlen' : (kept ++ [c]).length < ms := by omega
        obtain ⟨h1, ⟨t, ht⟩, h3⟩ := ih (kept ++ [c]) hlen' hpw'
        exact ⟨h1, ⟨[c] ++ t, by rw [ht, List.append_assoc]⟩, h3⟩
    · -- too similar: c is dropped
      have hred : ensureDiversityGo ms th (c :: cs) kept =
          if ms ≤ kept.length then kept else ensureDiversityGo ms th cs kept := by
        rw [ensureDiversityGo, hsim]
        simp
      rw [hred]
      by_cases hstop : ms ≤ kept.length
      · rw [if_pos hstop]
        exact ⟨by omega, ⟨[], by simp⟩, hpw⟩
      · rw [if_neg hstop]
        exact ih kept hlen hpw

/-- C3: for a configured maximum of at least `2` (the engine configures
`5`), the diversity filter keeps the first candidate of a non-empty input,
keeps at most `max_sources` candidates, and every pair of kept candidates
has word-set Jaccard similarity at most the threshold (in both orders, the
measure being symmetric). -/
theorem ensure_diversity_spec (ms : ℕ) (th : ℚ) (chunks : List SearchResult)
    (hms : 2 ≤ ms) :
    (ensure_diversity ms th chunks).length ≤ ms ∧
    (∀ c0 rest, chunks = c0 :: rest → ∃ t, ensure_diversity ms th chunks = c0 :: t) ∧
    (ensure_diversity ms th chunks).Pairwise
      (fun a b => calculate_text_similarity a.text b.text ≤ th ∧
        calculate_text_similarity b.text a.text ≤ th) := by
  match hc : chunks with
  | [] =>
    refine ⟨by simp [ensure_diversity], ?_, by simp [ensure_diversity]⟩
    intro c0 rest h
    simp at h
  | c0 :: rest =>
    have hgo := ensureDiversityGo_spec ms th rest [c0]
      (by simp only [List.length_singleton]; omega)
      (List.pairwise_singleton _ _)
    have hE : ensure_diversity ms th (c0 :: rest) = ensureDiversityGo ms th rest [c0] := rfl
    have hsym : (ensure_diversity ms th (c0 :: rest)).Pairwise
        (fun a b => calculate_text_similarity a.text b.text ≤ th ∧
          calculate_text_similarity b.text a.text ≤ th) := by
      rw [hE]
      apply List.Pairwise.imp ?_ hgo.2.2
      intro a b hab
      exact ⟨hab, by rw [calculate_text_similarity_comm]; exact hab⟩
    refine ⟨by rw [hE]; exact hgo.1, ?_, hsym⟩
    intro c0' rest' heq
    obtain ⟨t, ht⟩ := hgo.2.1
    cases heq
    exact ⟨t, by rw [hE, ht]; rfl⟩

/-- C3 witness: with the configured maximum `5` and default threshold `0.8`,
filtering the concrete two-candidate list keeps the first candidate, at most
`5` candidates, and only pairwise-dissimilar candidates. -/
theorem ensure_diversity_spec_witness :
    (ensure_diversity 5 (8/10) [cexD1, cexD2]).length ≤ 5 ∧
    (∃ t, ensure_diversity 5 (8/10) [cexD1, cexD2] = cexD1 :: t) ∧
    (ensure_diversity 5 (8/10) [cexD1, cexD2]).Pairwise
      (fun a b => calculate_text_similarity a.text b.text ≤ 8/10 ∧
        calculate_text_similarity b.text a.text ≤ 8/10) := by
  have h := ensure_diversity_spec 5 (8/10) [cexD1, cexD2] (by norm_num)
  exact ⟨h.1, h.2.1 cexD1 [cexD2] rfl, h.2.2⟩

/-! ### C2: the confidence score -/

theorem roundHalfToEven_dist (x : ℚ) : |(roundHalfToEven x : ℚ) - x| ≤ 1/2 := by
  unfold roundHalfToEven
  split_ifs with h h2
  · rw [abs_sub_comm]
    have hfr : x - (⌊x⌋ : ℚ) = Int.fract x := rfl
    rw [hfr, h]
    rw [abs_of_nonneg] <;> norm_num
  · have hcast : (((⌊x⌋ + 1 : ℤ)) : ℚ) - x = 1 - Int.fract x := by
      rw [Int.fract]
      push_cast
      ring
    rw [hcast, h]
    rw [show (1 : ℚ) - 1/2 = 1/2 by norm_num]
    rw [abs_of_nonneg] <;> norm_num
  · rw [abs_sub_comm]
    exact abs_sub_round x

theorem pyRound3_bounds {q : ℚ} (h0 : 0 ≤ q) (h1 : q ≤ 1) :
    0 ≤ pyRound3 q ∧ pyRound3 q ≤ 1 := by
  unfold pyRound3
  have hdist := roundHalfToEven_dist (q * 1000)
  rw [abs_le] at hdist
  constructor
  · apply div_nonneg _ (by norm_num)
    have h3 : (0 : ℤ) ≤ roundHalfToEven (q * 1000) := by
      by_contra hneg
      push_neg at hneg
      have h4 : roundHalfToEven (q * 1000) ≤ -1 := by omega
      have h5 : ((roundHalfToEven (q * 1000) : ℤ) : ℚ) ≤ -1 := by exact_mod_cast h4
      nlinarith [hdist.1]
    exact_mod_cast h3
  · rw [div_le_one (by norm_num)]
    have h3 : roundHalfToEven (q * 1000) ≤ 1000 := by
      by_contra hgt
      push_neg at hgt
      have h4 : (1001 : ℤ) ≤ roundHalfToEven (q * 1000) := by omega
      have h5 : (1001 : ℚ) ≤ ((roundHalfToEven (q * 1000) : ℤ) : ℚ) := by exact_mod_cast h4
      nlinarith [hdist.2]
    exact_mod_cast h3

theorem list_avg_bounds (l : List ℚ) (lo hi : ℚ) (hne : l ≠ [])
    (h : ∀ x ∈ l, lo ≤ x ∧ x ≤ hi) :
    lo ≤ l.sum / l.length ∧ l.sum / l.length ≤ hi := by
  have hlen : (0 : ℚ) < l.length := by
    have := List.length_pos.mpr hne
    exact_mod_cast this
  constructor
  · rw [le_div_iff hlen]
    have hs := List.card_nsmul_le_sum l lo (fun x hx => (h x hx).1)
    rwa [nsmul_eq_mul, mul_comm] at hs
  · rw [div_le_iff hlen]
    have hs := List.sum_le_card_nsmul l hi (fun x hx => (h x hx).2)
    rwa [nsmul_eq_mul, mul_comm] at hs

/-- C2: on candidate lists produced by the ranking pipeline (raw score
between the minimum relevance `0.3` and `1`, `quality_score` key present
with a value in the quality range `[-0.1, 1]`), the confidence is `0` for
an empty list, always lies in `[0, 1]`, and for a non-empty list equals the
rounded blend `0.6·mean(score) + 0.2·min(count/3, 1) + 0.2·mean(quality)`. -/
theorem calculate_confidence_spec (chunks : List SearchResult)
    (hs : ∀ c ∈ chunks, 3/10 ≤ c.score ∧ c.score ≤ 1 ∧
      ∃ q, c.quality_score = some q ∧ -(1/10) ≤ q ∧ q ≤ 1) :
    (chunks = [] → calculate_confidence chunks = 0) ∧
    (0 ≤ calculate_confidence chunks ∧ calculate_confidence chunks ≤ 1) ∧
    (chunks ≠ [] → calculate_confidence chunks =
      pyRound3 ((chunks.map (fun c => c.score)).sum / (chunks.length : ℚ) * (6/10)
        + min ((chunks.length : ℚ) / 3) 1 * (2/10)
        + (chunks.map (fun c => c.quality_score.getD (1/2))).sum
            / (chunks.length : ℚ) * (2/10))) := by
  by_cases hne : chunks = []
  · subst hne
    exact ⟨fun _ => rfl, by norm_num [calculate_confidence], fun h => absurd rfl h⟩
  · have heq : calculate_confidence chunks =
        pyRound3 ((chunks.map (fun c => c.score)).sum / (chunks.length : ℚ) * (6/10)
          + min ((chunks.length : ℚ) / 3) 1 * (2/10)
          + (chunks.map (fun c => c.quality_score.getD (1/2))).sum
              / (chunks.length : ℚ) * (2/10)) := by
      unfold calculate_confidence
      rw [if_neg hne]
    refine ⟨fun h => absurd h hne, ?_, fun _ => heq⟩
    rw [heq]
    have hn1 : (1 : ℚ) ≤ (chunks.length : ℚ) := by
      have := List.length_pos.mpr hne
      exact_mod_cast this
    have havg := list_avg_bounds (chunks.map (fun c => c.score))
      (3/10) 1 (by simpa using hne) ?hscore
    case hscore =>
      intro x hx
      obtain ⟨c, hc, hce⟩ := List.mem_map.mp hx
      exact hce ▸ ⟨(hs c hc).1, (hs c hc).2.1⟩
    have hqual := list_avg_bounds (chunks.map (fun c => c.quality_score.getD (1/2)))
      (-(1/10)) 1 (by simpa using hne) ?hq
    case hq =>
      intro x hx
      obtain ⟨c, hc, hce⟩ := List.mem_map.mp hx
      obtain ⟨q, hq1, hq2, hq3⟩ := (hs c hc).2.2
      rw [← hce, hq1]
      exact ⟨hq2, hq3⟩
    simp only [List.length_map] at havg hqual
    have hsf1 : (1 : ℚ)/3 ≤ min ((chunks.length : ℚ) / 3) 1 :=
      le_min (by linarith) (by norm_num)
    have hsf2 : min ((chunks.length : ℚ) / 3) 1 ≤ 1 := min_le_right _ _
    apply pyRound3_bounds
    · nlinarith [havg.1, hqual.1, hsf1]
    · nlinarith [havg.2, hqual.2, hsf2]

/-- C2 witness: the empty list yields confidence exactly `0`, and the
single perfect candidate `cexConf` yields a confidence inside `[0, 1]`
equal to the rounded blend. -/
theorem calculate_confidence_spec_witness :
    calculate_confidence [] = 0 ∧
    (0 ≤ calculate_confidence [cexConf] ∧ calculate_confidence [cexConf] ≤ 1) ∧
    calculate_confidence [cexConf] = 867/1000 := by
  have hempty := (calculate_confidence_spec [] (by simp)).1 rfl
  have hside : ∀ c ∈ [cexConf], 3/10 ≤ c.score ∧ c.score ≤ 1 ∧
      ∃ q, c.quality_score = some q ∧ -(1/10) ≤ q ∧ q ≤ 1 := by
    intro c hc
    rw [List.mem_singleton] at hc
    subst hc
    exact ⟨by norm_num [cexConf], by norm_num [cexConf], 1, rfl, by norm_num, le_refl 1⟩
  have h := calculate_confidence_spec [cexConf] hside
  refine ⟨hempty, h.2.1, ?_⟩
  with_unfolding_all rfl

/-! ### C6: positional mis-mapping after a removal -/

/-- C6: a concrete operation sequence (add `A`, add `B`, remove `A`) after
which `search` mis-attributes a neighbor.  The returned result carries
`chunk_id = "B_1"` with score `1`, but that score is the inner product with
the vector at stable index position `0` — the vector stored for the removed
chunk `"A_0"` — while chunk `"B_1"`'s own stored vector has similarity `0`
with the query.  The defect is the lookup `chunk_id_list[idx]` into the
chunk dict's shifted iteration order. -/
theorem search_mis_maps_after_removal :
    stR.search embedC "q" 1 [] =
      some [{ chunk_id := "B_1", document_id := "B", text := "tB", score := 1,
              metadata := { text := "tB", page := none } }] ∧
    stR.index_vecs[0]? = some (embedC "tA") ∧
    dotQ (embedC "q") (embedC "tA") = 1 ∧
    dotQ (embedC "q") (embedC "tB") = 0 ∧
    List.lookup "A_0" stB.chunks = some
      { document_id := "A", text := "tA", metadata := { text := "tA", page := none },
        chunk_index := 0 } ∧
    List.lookup "B_1" stR.chunks = some
      { document_id := "B", text := "tB", metadata := { text := "tB", page := none },
        chunk_index := 0 } ∧
    "B_1" ≠ "A_0" := by
  refine ⟨?_, ?_, ?_, ?_, ?_, ?_, ?_⟩
  · with_unfolding_all rfl
  · with_unfolding_all rfl
  · with_unfolding_all rfl
  · with_unfolding_all rfl
  · with_unfolding_all rfl
  · with_unfolding_all rfl
  · decide

/-! ### C8: degraded response on generation failure -/

/-- C8: whenever the ranked candidate list is non-empty and the generation
collaborator raises, `RAGEngine.query` returns (rather than propagates) a
response carrying the already-computed formatted sources, confidence exactly
`0.0`, the mode, and the error detail. -/
theorem query_degraded_on_generation_failure
    (cfg : RAGConfig) (st : VectorStore) (embed : String → List ℚ)
    (gen : String → Except String String) (question : String)
    (document_ids : List String) (mode : String) (max_sources? : Option ℕ)
    (sr : List SearchResult) (e : String)
    (hs : st.search embed question ((max_sources?.getD cfg.max_sources) * 3) document_ids
      = some sr)
    (hrel : (filter_chunks cfg sr question).take (max_sources?.getD cfg.max_sources) ≠ [])
    (hgen : gen (build_prompt question
        (build_context cfg ((filter_chunks cfg sr question).take
          (max_sources?.getD cfg.max_sources)) mode) mode) = Except.error e) :
    RAGEngine.query cfg st embed gen question document_ids mode max_sources? =
      some { answer := "I encountered an error while processing your question: " ++ e,
             sources := format_sources ((filter_chunks cfg sr question).take
               (max_sources?.getD cfg.max_sources)),
             confidence := 0,
             mode := mode,
             error := some e } := by
  simp only [RAGEngine.query, hs]
  rw [if_neg hrel]
  simp only [hgen]

/-- C8 witness: on the concrete one-chunk store `stQ` with the failing
generator `genFail`, `query` returns the degraded response with the
formatted source, zero confidence, the mode and the error detail. -/
theorem query_degraded_on_generation_failure_witness :
    RAGEngine.query defaultConfig stQ embedOne genFail "what" [] "standard" none =
      some { answer := "I encountered an error while processing your question: boom",
             sources := [{ document_id := "D", document_name := "D.pdf",
                           chunk_content := "machine learning is a method of data analysis that learns",
                           page := some 3, relevance := 1 }],
             confidence := 0,
             mode := "standard",
             error := some "boom" } := by
  have hs : stQ.search embedOne "what" ((Option.getD none defaultConfig.max_sources) * 3) []
      = some [srQ] := by
    with_unfolding_all rfl
  have htake : (filter_chunks defaultConfig [srQ] "what").take
        (Option.getD none defaultConfig.max_sources)
      = [srQScored] := by
    with_unfolding_all rfl
  have h := query_degraded_on_generation_failure defaultConfig stQ embedOne genFail
    "what" [] "standard" none _ "boom" hs
    (by rw [htake]; exact List.cons_ne_nil _ _) rfl
  rw [h, htake]
  with_unfolding_all rfl

/-! ### C1: `search` result count and ordering -/

theorem scoreHits_snd_lt {q : List ℚ} :
    ∀ {vs : List (List ℚ)} {i : ℕ} {p : ℚ × ℕ},
      p ∈ scoreHits q vs i → p.2 < i + vs.length := by
  intro vs
  induction vs with
  | nil => intro i p hp; simp [scoreHits] at hp
  | cons v vs ih =>
    intro i p hp
    rcases List.mem_cons.mp hp with rfl | hp'
    · simp only [List.length_cons]
      omega
    · have := ih hp'
      simp only [List.length_cons]
      omega

theorem scoreHits_snd (q : List ℚ) :
    ∀ (vs : List (List ℚ)) (i : ℕ),
      (scoreHits q vs i).map Prod.snd = List.range' i vs.length := by
  intro vs
  induction vs with
  | nil => intro i; rfl
  | cons v vs ih =>
    intro i
    simp only [scoreHits, List.map_cons, List.length_cons, List.range']
    rw [ih (i + 1)]

/-- The FAISS hit list is strictly ordered (descending score, strictly
ascending position on ties), every position is in range, and at most `m`
hits are returned. -/
theorem simIndexSearch_spec (vecs : List (List ℚ)) (q : List ℚ) (m : ℕ) :
    (simIndexSearch vecs q m).Pairwise
      (fun a b : ℚ × ℕ => b.1 < a.1 ∨ (a.1 = b.1 ∧ a.2 < b.2)) ∧
    (∀ h ∈ simIndexSearch vecs q m, h.2 < vecs.length) ∧
    (simIndexSearch vecs q m).length ≤ m := by
  have hsorted : (List.insertionSort faissOrd (scoreHits q vecs 0)).Pairwise faissOrd :=
    List.sorted_insertionSort faissOrd (scoreHits q vecs 0)
  have hperm := List.perm_insertionSort faissOrd (scoreHits q vecs 0)
  have hnd : ((List.insertionSort faissOrd (scoreHits q vecs 0)).map Prod.snd).Nodup := by
    apply (List.Perm.nodup_iff (List.Perm.map Prod.snd hperm)).mpr
    rw [scoreHits_snd]
    exact List.nodup_range' _ _
  have hndtake : ((simIndexSearch vecs q m).map Prod.snd).Nodup :=
    List.Nodup.sublist (List.Sublist.map Prod.snd (List.take_sublist m _)) hnd
  have hpwtake : (simIndexSearch vecs q m).Pairwise faissOrd :=
    List.Pairwise.sublist (List.take_sublist m _) hsorted
  refine ⟨?_, ?_, ?_⟩
  · have hne : (simIndexSearch vecs q m).Pairwise (fun a b : ℚ × ℕ => a.2 ≠ b.2) :=
      List.pairwise_map.mp hndtake
    apply List.Pairwise.imp ?_ (List.Pairwise.and hpwtake hne)
    rintro a b ⟨hab | ⟨hs, hi⟩, hne2⟩
    · exact Or.inl hab
    · exact Or.inr ⟨hs, lt_of_le_of_ne hi hne2⟩
  · intro h hmem
    have h1 : h ∈ List.insertionSort faissOrd (scoreHits q vecs 0) :=
      (List.take_sublist m _).subset hmem
    have h2 : h ∈ scoreHits q vecs 0 := hperm.mem_iff.mp h1
    have := scoreHits_snd_lt h2
    omega
  · calc (simIndexSearch vecs q m).length
        = min m (List.insertionSort faissOrd (scoreHits q vecs 0)).length :=
          List.length_take _ _
      _ ≤ m := min_le_left _ _

theorem mem_keys_lookup {α : Type} {a : String} :
    ∀ {l : List (String × α)}, a ∈ l.map Prod.fst → ∃ v, List.lookup a l = some v := by
  intro l
  induction l with
  | nil => intro h; simp at h
  | cons q rest ih =>
    obtain ⟨k', v'⟩ := q
    intro h
    by_cases hk : a = k'
    · subst hk
      exact ⟨v', by simp [List.lookup_cons]⟩
    · have hbe : (a == k') = false := beq_eq_false_iff_ne.mpr hk
      rw [List.map_cons, List.mem_cons] at h
      rcases h with h1 | h2
      · exact absurd h1 hk
      · obtain ⟨v, hv⟩ := ih h2
        exact ⟨v, by simp only [List.lookup_cons, hbe]; exact hv⟩

theorem nodup_indexOf_of_getElem {l : List String} (hnd : l.Nodup) {i : ℕ} {a : String}
    (hilt : i < l.length) (hget : l.get ⟨i, hilt⟩ = a) : l.indexOf a = i := by
  have ha : a ∈ l := hget ▸ List.get_mem l i hilt
  have h1 : l.indexOf a < l.length := List.indexOf_lt_length.mpr ha
  have h2 : l[l.indexOf a] = a := List.getElem_indexOf h1
  apply (@List.Nodup.getElem_inj_iff _ _ hnd _ h1 _ hilt).mp
  rw [h2, ← hget]
  rfl

/-- The correspondence between a selected FAISS hit and the search result
built from it: same score, and the chunk id is the hit position's entry in
the chunk dict's key order. -/
def HitMatches (chunks : List (String × ChunkData)) (h : ℚ × ℕ) (r : SearchResult) : Prop :=
  r.score = h.1 ∧ (chunks.map Prod.fst)[h.2]? = some r.chunk_id

theorem forall₂_exists_left {α β : Type} {Q : α → β → Prop} :
    ∀ {l₁ : List α} {l₂ : List β}, List.Forall₂ Q l₁ l₂ →
      ∀ y ∈ l₂, ∃ b ∈ l₁, Q b y := by
  intro l₁ l₂ hf
  induction hf with
  | nil => intro y hy; simp at hy
  | cons hq _ ih =>
    intro y hy
    rcases List.mem_cons.mp hy with rfl | hy'
    · exact ⟨_, List.mem_cons_self _ _, hq⟩
    · obtain ⟨b, hb, hqb⟩ := ih y hy'
      exact ⟨b, List.mem_cons_of_mem _ hb, hqb⟩

theorem pairwise_of_forall₂ {α β : Type} {Q : α → β → Prop} {R : α → α → Prop}
    {S : β → β → Prop} (himp : ∀ a b x y, Q a x → Q b y → R a b → S x y) :
    ∀ {l₁ : List α} {l₂ : List β}, List.Forall₂ Q l₁ l₂ →
      l₁.Pairwise R → l₂.Pairwise S := by
  intro l₁ l₂ hf
  induction hf with
  | nil => intro _; exact List.Pairwise.nil
  | cons hq hf' ih =>
    intro hpw
    rcases List.pairwise_cons.mp hpw with ⟨hhead, htail⟩
    refine List.Pairwise.cons ?_ (ih htail)
    intro y hy
    obtain ⟨b, hb, hqb⟩ := forall₂_exists_left hf' y hy
    exact himp _ b _ y hq hqb (hhead b hb)

theorem searchGo_spec (chunks : List (String × ChunkData)) (document_ids : List String)
    (k : ℕ) :
    ∀ (hits : List (ℚ × ℕ)) (acc : List SearchResult),
      (∀ h ∈ hits, h.2 < chunks.length) →
      acc.length < k →
      ∃ res tail sub, searchGo chunks document_ids k hits acc = some res ∧
        res = acc ++ tail ∧ res.length ≤ k ∧
        sub.Sublist hits ∧ List.Forall₂ (HitMatches chunks) sub tail := by
  intro hits
  induction hits with
  | nil =>
    intro acc _ hlen
    exact ⟨acc, [], [], rfl, by simp, le_of_lt hlen, List.nil_sublist _,
      List.Forall₂.nil⟩
  | cons h0 rest ih =>
    obtain ⟨s, i⟩ := h0
    intro acc hbound hlen
    have hi : i < chunks.length := hbound (s, i) (List.mem_cons_self _ _)
    have hi' : i < (chunks.map Prod.fst).length := by
      rw [List.length_map]
      exact hi
    have hsome : (chunks.map Prod.fst)[i]? = some ((chunks.map Prod.fst).get ⟨i, hi'⟩) := by
      rw [List.getElem?_eq_getElem hi']
      rfl
    obtain ⟨cd, hcd⟩ := mem_keys_lookup (List.get_mem (chunks.map Prod.fst) i hi')
    set r : SearchResult := { chunk_id := (chunks.map Prod.fst).get ⟨i, hi'⟩,
                              document_id := cd.document_id, text := cd.text,
                              score := s, metadata := cd.metadata } with hr
    have hred : searchGo chunks document_ids k ((s, i) :: rest) acc =
        if document_ids ≠ [] ∧ cd.document_id ∉ document_ids then
          searchGo chunks document_ids k rest acc
        else
          if k ≤ (acc ++ [r]).length then some (acc ++ [r])
          else searchGo chunks document_ids k rest (acc ++ [r]) := by
      simp only [searchGo, hsome, hcd]
    have hrest : ∀ h ∈ rest, h.2 < chunks.length :=
      fun h hh => hbound h (List.mem_cons_of_mem _ hh)
    rw [hred]
    by_cases hskip : document_ids ≠ [] ∧ cd.document_id ∉ document_ids
    · rw [if_pos hskip]
      obtain ⟨res, tail, sub, h1, h2, h3, h4, h5⟩ := ih acc hrest hlen
      exact ⟨res, tail, sub, h1, h2, h3, List.Sublist.cons _ h4, h5⟩
    · rw [if_neg hskip]
      have hmatch : HitMatches chunks (s, i) r := by
        refine ⟨rfl, ?_⟩
        rw [hsome]
      by_cases hstop : k ≤ (acc ++ [r]).length
      · rw [if_pos hstop]
        refine ⟨acc ++ [r], [r], [(s, i)], rfl, rfl, ?_, ?_, ?_⟩
        · rw [List.length_append, List.length_singleton]
          omega
        · exact List.Sublist.cons₂ _ (List.nil_sublist _)
        · exact List.Forall₂.cons hmatch List.Forall₂.nil
      · rw [if_neg hstop]
        have hlen' : (acc ++ [r]).length < k := by
          rw [List.length_append, List.length_singleton] at hstop ⊢
          omega
        obtain ⟨res, tail, sub, h1, h2, h3, h4, h5⟩ := ih (acc ++ [r]) hrest hlen'
        refine ⟨res, [r] ++ tail, (s, i) :: sub, h1, ?_, h3,
          List.Sublist.cons₂ _ h4, List.Forall₂.cons hmatch h5⟩
        rw [h2, List.append_assoc]

/-- C1: on a store whose chunk dict matches the index (one record per
stored vector, distinct keys — any store reachable without removals),
`search(q, k)` with `k ≥ 1` succeeds and returns at most `min(k, n)`
results, sorted by non-increasing score with ties broken by ascending
insertion position of the resolved chunk. -/
theorem search_bounded_sorted (st : VectorStore) (embed : String → List ℚ)
    (query : String) (k : ℕ) (document_ids : List String)
    (hk : 1 ≤ k)
    (hlen : st.chunks.length = st.index_vecs.length)
    (hnd : (st.chunks.map Prod.fst).Nodup) :
    ∃ res, st.search embed query k document_ids = some res ∧
      res.length ≤ min k st.index_vecs.length ∧
      res.Pairwise (fun r1 r2 => r2.score ≤ r1.score ∧
        (r1.score = r2.score →
          (st.chunks.map Prod.fst).indexOf r1.chunk_id
            < (st.chunks.map Prod.fst).indexOf r2.chunk_id)) := by
  obtain ⟨hpw, hbound, hlenhits⟩ :=
    simIndexSearch_spec st.index_vecs (embed query) (min (k * 2) st.index_vecs.length)
  have hbound' : ∀ h ∈ simIndexSearch st.index_vecs (embed query)
      (min (k * 2) st.index_vecs.length), h.2 < st.chunks.length := by
    intro h hh
    rw [hlen]
    exact hbound h hh
  obtain ⟨res, tail, sub, h1, h2, h3, h4, h5⟩ :=
    searchGo_spec st.chunks document_ids k
      (simIndexSearch st.index_vecs (embed query) (min (k * 2) st.index_vecs.length))
      [] hbound' (by simpa using hk)
  refine ⟨res, h1, ?_, ?_⟩
  · refine le_min h3 ?_
    have e1 : res.length = tail.length := by rw [h2]; simp
    have e2 : tail.length = sub.length := (List.Forall₂.length_eq h5).symm
    have e3 : sub.length ≤ (simIndexSearch st.index_vecs (embed query)
        (min (k * 2) st.index_vecs.length)).length := h4.length_le
    omega
  · have hsub : sub.Pairwise (fun a b : ℚ × ℕ => b.1 < a.1 ∨ (a.1 = b.1 ∧ a.2 < b.2)) :=
      List.Pairwise.sublist h4 hpw
    have htail : tail.Pairwise (fun r1 r2 => r2.score ≤ r1.score ∧
        (r1.score = r2.score →
          (st.chunks.map Prod.fst).indexOf r1.chunk_id
            < (st.chunks.map Prod.fst).indexOf r2.chunk_id)) := by
      apply pairwise_of_forall₂ ?_ h5 hsub
      intro a b x y hax hby hr
      obtain ⟨hax1, hax2⟩ := hax
      obtain ⟨hby1, hby2⟩ := hby
      obtain ⟨ha2, hget_a⟩ := List.getElem?_eq_some.mp hax2
      obtain ⟨hb2, hget_b⟩ := List.getElem?_eq_some.mp hby2
      have hidx_a : (st.chunks.map Prod.fst).indexOf x.chunk_id = a.2 :=
        nodup_indexOf_of_getElem hnd ha2 hget_a
      have hidx_b : (st.chunks.map Prod.fst).indexOf y.chunk_id = b.2 :=
        nodup_indexOf_of_getElem hnd hb2 hget_b
      rcases hr with hlt | ⟨heq, hilt⟩
      · constructor
        · rw [hax1, hby1]
          exact le_of_lt hlt
        · intro hcontra
          rw [hax1, hby1] at hcontra
          exact absurd (hcontra ▸ hlt) (lt_irrefl _)
      · constructor
        · rw [hax1, hby1, heq]
        · intro _
          rw [hidx_a, hidx_b]
          exact hilt
    rw [h2]
    simpa using htail

/-- C1 witness: on the two-chunk store `stB` with `k = 1`, `search`
succeeds, returns at most `min(1, 2)` results, and they are sorted. -/
theorem search_bounded_sorted_witness :
    ∃ res, stB.search embedC "q" 1 [] = some res ∧
      res.length ≤ min 1 stB.index_vecs.length ∧
      res.Pairwise (fun r1 r2 => r2.score ≤ r1.score ∧
        (r1.score = r2.score →
          (stB.chunks.map Prod.fst).indexOf r1.chunk_id
            < (stB.chunks.map Prod.fst).indexOf r2.chunk_id)) := by
  apply search_bounded_sorted stB embedC "q" 1 [] (le_refl 1)
  · with_unfolding_all rfl
  · have h : stB.chunks.map Prod.fst = ["A_0", "B_1"] := by with_unfolding_all rfl
    rw [h]
    simp
